import Mathlib

/-!
Verification of the `linkgraph` store of KyteProject/search-engine.

Shallow embedding conventions:

* A `uuid.UUID` is represented by its canonical fixed-width string form
  (the result of `uuid.UUID.String()`); the Go code compares identifiers
  exactly through this string form (`memory.go`, `Links`/`Edges`), and
  equality of UUIDs coincides with equality of the canonical strings.
* A `time.Time` is represented by an `Int`; `t1.Before(t2)` is `t1 < t2`
  and `t1.After(t2)` is `t1 > t2`.  `time.Now()` inside `UpsertEdge` is
  passed in as an explicit `now` parameter.
* The Go maps `links`, `edges` are modelled as lists of records keyed by
  their `ID` field; `linkEdgeMap` is an association list from source link
  ID to the list of outgoing edge IDs.  The `linkURLIndex` map is kept in
  lockstep with `links` by the Go code (every insertion writes both, and
  a stored link's URL never changes), so it is modelled as lookup of
  `links` by URL.
* The `uuid.New()` collision-retry loops draw a fresh identifier; the
  drawn identifier is passed in as a `newId` parameter, and theorems
  assume the freshness the loop guarantees.
* Go methods mutate their receiver and their pointer arguments in place;
  each operation here returns the new value of the caller's argument
  together with the new store state.
-/

namespace LinkGraph

/-- `graph.Link` (graph/graph.go): `ID uuid.UUID`, `URL string`,
`RetrievedAt time.Time`. -/
structure Link where
  id : String
  url : String
  retrievedAt : Int
deriving DecidableEq, Repr

/-- `graph.Edge` (graph/graph.go): `ID`, `Source`, `Destination`
(`uuid.UUID`) and `UpdatedAt time.Time`. -/
structure Edge where
  id : String
  source : String
  destination : String
  updatedAt : Int
deriving DecidableEq, Repr

/-- The shared error taxonomy of the graph package:
`graph.ErrNotFound` and `graph.ErrUnknownEdgeLinks`. -/
inductive GraphErr where
  | notFound
  | unknownEdgeLinks
deriving DecidableEq, Repr

/-- `memory.InMemoryGraph` (memory/memory.go): the `links` and `edges`
maps (keyed by the records' own `id` fields) and the `linkEdgeMap`
adjacency index.  The `linkURLIndex` map is modelled as URL lookup on
`links`, see the file header. -/
structure InMemoryGraph where
  links : List Link
  edges : List Edge
  linkEdgeMap : List (String × List String)
deriving DecidableEq, Repr

/-- `NewInMemoryGraph` (memory.go): all four structures empty. -/
def emptyGraph : InMemoryGraph := ⟨[], [], []⟩

/-- Go map lookup `s.links[id]` (`nil` becomes `none`). -/
def lookupLink (s : InMemoryGraph) (id : String) : Option Link :=
  s.links.find? (fun l => l.id == id)

/-- Go map lookup `s.linkURLIndex[url]`; the URL index always holds
exactly the stored links keyed by their URL. -/
def lookupURL (s : InMemoryGraph) (url : String) : Option Link :=
  s.links.find? (fun l => l.url == url)

/-- Go map lookup `s.edges[id]`. -/
def lookupEdge (s : InMemoryGraph) (id : String) : Option Edge :=
  s.edges.find? (fun e => e.id == id)

/-- Association-list lookup modelling `m[src]` on the `linkEdgeMap`;
a missing key yields the empty (nil) slice. -/
def lookupAdjList : List (String × List String) → String → List String
  | [], _ => []
  | p :: rest, src => if p.1 == src then p.2 else lookupAdjList rest src

/-- `s.linkEdgeMap[edge.Source]`. -/
def edgeList (s : InMemoryGraph) (src : String) : List String :=
  lookupAdjList s.linkEdgeMap src

/-- `s.linkEdgeMap[src] = append(s.linkEdgeMap[src], eid)`. -/
def insertEdgeId : List (String × List String) → String → String →
    List (String × List String)
  | [], src, eid => [(src, [eid])]
  | p :: rest, src, eid =>
      if p.1 == src then (p.1, p.2 ++ [eid]) :: rest
      else p :: insertEdgeId rest src eid

/-- `s.linkEdgeMap[src] = l` (map assignment, creating the key if
absent). -/
def setAdjList : List (String × List String) → String → List String →
    List (String × List String)
  | [], src, l => [(src, l)]
  | p :: rest, src, l =>
      if p.1 == src then (p.1, l) :: rest
      else p :: setAdjList rest src l

/-- `InMemoryGraph.UpsertLink` (memory.go lines 40-71).  `newId` is the
identifier drawn by the `uuid.New()` collision-retry loop on the insert
path.  Returns the caller's `link` argument as mutated by the call,
together with the new store state.

On the conflict path the code sets `link.ID = existing.ID`, overwrites
`*existing` with `*link`, and then restores the original stored
timestamp into `existing.RetrievedAt` when it is the newer of the two;
the caller's `link.RetrievedAt` is left at the submitted value. -/
def upsertLink (newId : String) (link : Link) (s : InMemoryGraph) :
    Link × InMemoryGraph :=
  match lookupURL s link.url with
  | some existing =>
      let link' : Link := { link with id := existing.id }
      let resolved : Int :=
        if existing.retrievedAt > link'.retrievedAt then existing.retrievedAt
        else link'.retrievedAt
      let stored : Link := { link' with retrievedAt := resolved }
      (link', { s with
        links := s.links.map (fun l => if l.id == existing.id then stored else l) })
  | none =>
      let link' : Link := { link with id := newId }
      (link', { s with links := s.links ++ [link'] })

/-- The linear scan of the source's adjacency list performed by
`UpsertEdge` (memory.go lines 86-93): the first listed edge with the
same `(Source, Destination)` pair. -/
def dedupScan (s : InMemoryGraph) (edge : Edge) : Option Edge :=
  (edgeList s edge.source).findSome? (fun eid =>
    match lookupEdge s eid with
    | some ex =>
        if ex.source == edge.source && ex.destination == edge.destination then
          some ex
        else none
    | none => none)

/-- `InMemoryGraph.UpsertEdge` (memory.go lines 74-113).  `now` stands
for `time.Now()`, `newId` for the identifier drawn on the insert path.
Returns the error (if any), the caller's `edge` argument as mutated by
the call, and the new store state. -/
def upsertEdge (now : Int) (newId : String) (edge : Edge) (s : InMemoryGraph) :
    Option GraphErr × Edge × InMemoryGraph :=
  if !(lookupLink s edge.source).isSome || !(lookupLink s edge.destination).isSome then
    (some .unknownEdgeLinks, edge, s)
  else
    match dedupScan s edge with
    | some existingEdge =>
        let updated : Edge := { existingEdge with updatedAt := now }
        (none, updated, { s with
          edges := s.edges.map (fun e => if e.id == existingEdge.id then updated else e) })
    | none =>
        let e' : Edge := { edge with id := newId, updatedAt := now }
        (none, e', { s with
          edges := s.edges ++ [e'],
          linkEdgeMap := insertEdgeId s.linkEdgeMap edge.source e'.id })

/-- `InMemoryGraph.FindLink` (memory.go lines 116-128). -/
def findLink (id : String) (s : InMemoryGraph) : Except GraphErr Link :=
  match lookupLink s id with
  | none => .error .notFound
  | some l => .ok l

/-- Go's `<` on `string` values is byte-wise lexicographic comparison;
canonical UUID strings are ASCII, so byte order is character order. -/
def charListLt : List Char → List Char → Bool
  | _, [] => false
  | [], _ :: _ => true
  | a :: as, b :: bs =>
      if a < b then true
      else if b < a then false
      else charListLt as bs

/-- `a < b` on identifier strings, as in `id < to` (memory.go). -/
def idLt (a b : String) : Bool := charListLt a.toList b.toList

/-- `a <= b` on identifier strings, as in `id >= from` (memory.go);
for Go's total order on strings, `a <= b` is `!(b < a)`. -/
def idLe (a b : String) : Bool := !idLt b a

/-- The scan performed by `InMemoryGraph.Links` (memory.go lines
132-145): the records whose canonical identifier string lies in
`[fromId, toId)` and whose `RetrievedAt` is before `retrievedBefore`. -/
def linksScan (fromId toId : String) (retrievedBefore : Int)
    (s : InMemoryGraph) : List Link :=
  s.links.filter (fun l =>
    idLe fromId l.id && idLt l.id toId &&
    decide (l.retrievedAt < retrievedBefore))

/-- The `linkIterator` built by `Links` stores `[]*graph.Link` — pointers
into the live records.  A pointer is identified by the record's ID
(links are never deleted and never re-keyed), so the iterator state is
the list of scanned IDs. -/
def linksScanIds (fromId toId : String) (retrievedBefore : Int)
    (s : InMemoryGraph) : List String :=
  (linksScan fromId toId retrievedBefore s).map Link.id

/-- `linkIterator.Link()` (link_iterator.go) dereferences the stored
pointer at call time and clones the record's current contents; the
yielded values for the whole iteration are therefore the current store
records for the scanned IDs. -/
def iterYieldLinks (ids : List String) (s : InMemoryGraph) :
    List (Option Link) :=
  ids.map (lookupLink s)

/-- The scan performed by `InMemoryGraph.Edges` (memory.go lines
150-174): for every stored link in the `[fromId, toId)` partition, the
outgoing edges (via `linkEdgeMap`) updated before `updatedBefore`. -/
def edgesScan (fromId toId : String) (updatedBefore : Int)
    (s : InMemoryGraph) : List Edge :=
  (s.links.filter (fun l => idLe fromId l.id && idLt l.id toId)).flatMap
    (fun l => (edgeList s l.id).filterMap (fun eid =>
      match lookupEdge s eid with
      | some e => if e.updatedAt < updatedBefore then some e else none
      | none => none))

/-- The staleness test `edge.UpdatedAt.Before(updatedBefore)` that
`RemoveStaleEdges` applies to the edge `s.edges[eid]`. -/
def staleCheck (s : InMemoryGraph) (updatedBefore : Int) (eid : String) : Bool :=
  match lookupEdge s eid with
  | some e => decide (e.updatedAt < updatedBefore)
  | none => false

/-- `InMemoryGraph.RemoveStaleEdges` (memory.go lines 178-197): walk the
adjacency list of `fromId`, delete from `edges` every listed edge whose
`UpdatedAt` is before `updatedBefore`, and replace the adjacency list
with the surviving IDs. -/
def removeStaleEdges (fromId : String) (updatedBefore : Int)
    (s : InMemoryGraph) : InMemoryGraph :=
  { s with
    edges := s.edges.filter (fun e =>
      !((edgeList s fromId).contains e.id && staleCheck s updatedBefore e.id)),
    linkEdgeMap := setAdjList s.linkEdgeMap fromId
      ((edgeList s fromId).filter (fun eid => !staleCheck s updatedBefore eid)) }

/-- The column values the SQL-backed store binds for one edge upsert.
`cdb.go` declares
`upsertEdgeQuery = INSERT INTO edges (src, dst, updated_at) VALUES ($1, $1, NOW()) ...`
and `UpsertEdge` runs `QueryRow(upsertEdgeQuery, edge.Source, edge.Destination)`:
the `src` and `dst` columns are both bound to placeholder `$1`, the
`Source` argument, and the `Destination` argument is bound to no
placeholder at all. -/
def cdbUpsertEdgeRow (source destination : String) : String × String :=
  (source, source)

/-- Number of placeholders appearing in `upsertEdgeQuery` (`$1` only). -/
def cdbUpsertEdgeQueryPlaceholders : Nat := 1

/-- Number of arguments `CockroachDBGraph.UpsertEdge` passes to the
query (`edge.Source` and `edge.Destination`). -/
def cdbUpsertEdgeArgs : Nat := 2

end LinkGraph

namespace LinkGraph

/-! ### Generic list lemmas -/

/-- Mapping a function that preserves a projection `g` does not change the
image of the list under `g`. -/
theorem map_map_eq_of_proj_eq {α β : Type} (upd : α → α) (g : α → β)
    (l : List α) (h : ∀ a ∈ l, g (upd a) = g a) :
    (l.map upd).map g = l.map g := by
  induction l with
  | nil => rfl
  | cons x xs ih =>
      simp only [List.map_cons, List.cons.injEq]
      exact ⟨h x (List.mem_cons_self x xs),
        ih (fun a ha => h a (List.mem_cons_of_mem _ ha))⟩

/-- `find?` commutes with mapping a function that preserves the predicate. -/
theorem find?_map_of_pred_eq {α : Type} (upd : α → α) (p : α → Bool)
    (l : List α) (h : ∀ a ∈ l, p (upd a) = p a) :
    (l.map upd).find? p = (l.find? p).map upd := by
  induction l with
  | nil => rfl
  | cons x xs ih =>
      have hx : p (upd x) = p x := h x (List.mem_cons_self x xs)
      cases hp : p x with
      | true =>
          rw [List.map_cons, List.find?_cons_of_pos _ hp,
            List.find?_cons_of_pos _ (hx.trans hp), Option.map_some']
      | false =>
          rw [List.map_cons,
            List.find?_cons_of_neg _ (by rw [hx, hp]; exact Bool.false_ne_true),
            List.find?_cons_of_neg _ (by rw [hp]; exact Bool.false_ne_true)]
          exact ih (fun a ha => h a (List.mem_cons_of_mem _ ha))

/-- In a list whose image under the key `f` has no duplicates, `find?` by
the key of a member returns that member. -/
theorem find?_key_of_nodup {α β : Type} [DecidableEq β] (f : α → β)
    (l : List α) (h : (l.map f).Nodup) (a : α) (ha : a ∈ l) :
    l.find? (fun x => f x == f a) = some a := by
  induction l with
  | nil => cases ha
  | cons x xs ih =>
      rw [List.map_cons, List.nodup_cons] at h
      rcases List.mem_cons.mp ha with rfl | ha'
      · exact List.find?_cons_of_pos _ (by simp)
      · have hne : f x ≠ f a := fun he =>
          h.1 (he ▸ List.mem_map_of_mem f ha')
        rw [List.find?_cons_of_neg _ (by simp [hne])]
        exact ih h.2 ha'

/-! ### Lookup characterizations -/

theorem lookupLink_eq_none_iff {s : InMemoryGraph} {id : String} :
    lookupLink s id = none ↔ ∀ l ∈ s.links, l.id ≠ id := by
  simp [lookupLink, List.find?_eq_none]

theorem lookupURL_eq_none_iff {s : InMemoryGraph} {url : String} :
    lookupURL s url = none ↔ ∀ l ∈ s.links, l.url ≠ url := by
  simp [lookupURL, List.find?_eq_none]

theorem lookupLink_mem {s : InMemoryGraph} {id : String} {l : Link}
    (h : lookupLink s id = some l) : l ∈ s.links ∧ l.id = id :=
  ⟨List.mem_of_find?_eq_some h, by simpa using List.find?_some h⟩

theorem lookupURL_mem {s : InMemoryGraph} {url : String} {l : Link}
    (h : lookupURL s url = some l) : l ∈ s.links ∧ l.url = url :=
  ⟨List.mem_of_find?_eq_some h, by simpa using List.find?_some h⟩

theorem lookupEdge_mem {s : InMemoryGraph} {id : String} {e : Edge}
    (h : lookupEdge s id = some e) : e ∈ s.edges ∧ e.id = id :=
  ⟨List.mem_of_find?_eq_some h, by simpa using List.find?_some h⟩

theorem lookupLink_of_mem {s : InMemoryGraph}
    (h : (s.links.map Link.id).Nodup) {l : Link} (hl : l ∈ s.links) :
    lookupLink s l.id = some l :=
  find?_key_of_nodup Link.id s.links h l hl

theorem lookupEdge_of_mem {s : InMemoryGraph}
    (h : (s.edges.map Edge.id).Nodup) {e : Edge} (he : e ∈ s.edges) :
    lookupEdge s e.id = some e :=
  find?_key_of_nodup Edge.id s.edges h e he

/-! ### Adjacency-list lemmas -/

theorem exists_entry_of_mem_lookupAdjList {m : List (String × List String)}
    {src eid : String} (h : eid ∈ lookupAdjList m src) :
    ∃ p ∈ m, p.1 = src ∧ eid ∈ p.2 := by
  induction m with
  | nil => cases h
  | cons p rest ih =>
      by_cases hp : p.1 = src
      · rw [lookupAdjList, if_pos (by simp [hp])] at h
        exact ⟨p, List.mem_cons_self p rest, hp, h⟩
      · rw [lookupAdjList, if_neg (by simp [hp])] at h
        obtain ⟨q, hq, hq1, hq2⟩ := ih h
        exact ⟨q, List.mem_cons_of_mem _ hq, hq1, hq2⟩

theorem lookupAdjList_insertEdgeId (m : List (String × List String))
    (src eid t : String) :
    lookupAdjList (insertEdgeId m src eid) t =
      if t = src then lookupAdjList m src ++ [eid] else lookupAdjList m t := by
  induction m with
  | nil =>
      by_cases h : t = src
      · subst h; simp [insertEdgeId, lookupAdjList]
      · simp [insertEdgeId, lookupAdjList, h, Ne.symm h]
  | cons p rest ih =>
      by_cases hp : p.1 = src
      · rw [insertEdgeId, if_pos (by simp [hp])]
        by_cases ht : t = src
        · subst ht; simp [lookupAdjList, hp]
        · have hpt : p.1 ≠ t := fun he => ht (he.symm.trans hp)
          simp [lookupAdjList, hp, ht, hpt, Ne.symm ht]
      · rw [insertEdgeId, if_neg (by simp [hp])]
        by_cases hpt : p.1 = t
        · have ht : t ≠ src := fun he => hp (hpt.trans he)
          simp [lookupAdjList, hpt, ht]
        · simp [lookupAdjList, hp, hpt, ih]

theorem lookupAdjList_setAdjList (m : List (String × List String))
    (src : String) (lst : List String) (t : String) :
    lookupAdjList (setAdjList m src lst) t =
      if t = src then lst else lookupAdjList m t := by
  induction m with
  | nil =>
      by_cases h : t = src
      · subst h; simp [setAdjList, lookupAdjList]
      · simp [setAdjList, lookupAdjList, h, Ne.symm h]
  | cons p rest ih =>
      by_cases hp : p.1 = src
      · rw [setAdjList, if_pos (by simp [hp])]
        by_cases ht : t = src
        · subst ht; simp [lookupAdjList, hp]
        · have hpt : p.1 ≠ t := fun he => ht (he.symm.trans hp)
          simp [lookupAdjList, ht, hpt]
      · rw [setAdjList, if_neg (by simp [hp])]
        by_cases hpt : p.1 = t
        · have ht : t ≠ src := fun he => hp (hpt.trans he)
          simp [lookupAdjList, hpt, ht]
        · simp [lookupAdjList, hpt, ih]

theorem mem_insertEdgeId {m : List (String × List String)}
    {src eid : String} {p : String × List String}
    (h : p ∈ insertEdgeId m src eid) :
    p ∈ m ∨ (p.1 = src ∧ ∀ x ∈ p.2, x = eid ∨ ∃ q ∈ m, q.1 = src ∧ x ∈ q.2) := by
  induction m with
  | nil =>
      rw [insertEdgeId, List.mem_singleton] at h
      subst h
      exact Or.inr ⟨rfl, fun x hx => Or.inl (List.mem_singleton.mp hx)⟩
  | cons q rest ih =>
      by_cases hq : q.1 = src
      · rw [insertEdgeId, if_pos (by simp [hq])] at h
        rcases List.mem_cons.mp h with rfl | h'
        · refine Or.inr ⟨hq, fun x hx => ?_⟩
          rcases List.mem_append.mp hx with hx' | hx'
          · exact Or.inr ⟨q, List.mem_cons_self q rest, hq, hx'⟩
          · exact Or.inl (List.mem_singleton.mp hx')
        · exact Or.inl (List.mem_cons_of_mem _ h')
      · rw [insertEdgeId, if_neg (by simp [hq])] at h
        rcases List.mem_cons.mp h with rfl | h'
        · exact Or.inl (List.mem_cons_self p rest)
        · rcases ih h' with h'' | ⟨h1, h2⟩
          · exact Or.inl (List.mem_cons_of_mem _ h'')
          · refine Or.inr ⟨h1, fun x hx => ?_⟩
            rcases h2 x hx with hx' | ⟨q', hq', hq1, hq2⟩
            · exact Or.inl hx'
            · exact Or.inr ⟨q', List.mem_cons_of_mem _ hq', hq1, hq2⟩

theorem mem_setAdjList {m : List (String × List String)}
    {src : String} {lst : List String} {p : String × List String}
    (hk : (m.map Prod.fst).Nodup) (h : p ∈ setAdjList m src lst) :
    (p ∈ m ∧ p.1 ≠ src) ∨ (p.1 = src ∧ p.2 = lst) := by
  induction m with
  | nil =>
      rw [setAdjList, List.mem_singleton] at h
      subst h; exact Or.inr ⟨rfl, rfl⟩
  | cons q rest ih =>
      rw [List.map_cons, List.nodup_cons] at hk
      by_cases hq : q.1 = src
      · rw [setAdjList, if_pos (by simp [hq])] at h
        rcases List.mem_cons.mp h with rfl | h'
        · exact Or.inr ⟨hq, rfl⟩
        · refine Or.inl ⟨List.mem_cons_of_mem _ h', fun he => ?_⟩
          exact hk.1 ((hq ▸ he) ▸ List.mem_map_of_mem Prod.fst h')
      · rw [setAdjList, if_neg (by simp [hq])] at h
        rcases List.mem_cons.mp h with rfl | h'
        · exact Or.inl ⟨List.mem_cons_self p rest, hq⟩
        · rcases ih hk.2 h' with ⟨h1, h2⟩ | h''
          · exact Or.inl ⟨List.mem_cons_of_mem _ h1, h2⟩
          · exact Or.inr h''

theorem keys_insertEdgeId_subset {m : List (String × List String)}
    {src eid x : String}
    (h : x ∈ (insertEdgeId m src eid).map Prod.fst) :
    x ∈ m.map Prod.fst ∨ x = src := by
  rcases List.mem_map.mp h with ⟨p, hp, rfl⟩
  rcases mem_insertEdgeId hp with h' | ⟨h', _⟩
  · exact Or.inl (List.mem_map_of_mem _ h')
  · exact Or.inr h'

theorem keys_nodup_insertEdgeId {m : List (String × List String)}
    {src eid : String} (h : (m.map Prod.fst).Nodup) :
    ((insertEdgeId m src eid).map Prod.fst).Nodup := by
  induction m with
  | nil => simp [insertEdgeId]
  | cons q rest ih =>
      rw [List.map_cons, List.nodup_cons] at h
      by_cases hq : q.1 = src
      · rw [insertEdgeId, if_pos (by simp [hq])]
        rw [List.map_cons, List.nodup_cons]
        exact ⟨h.1, h.2⟩
      · rw [insertEdgeId, if_neg (by simp [hq])]
        rw [List.map_cons, List.nodup_cons]
        refine ⟨fun hx => ?_, ih h.2⟩
        rcases keys_insertEdgeId_subset hx with hx' | hx'
        · exact h.1 hx'
        · exact hq hx'

theorem keys_setAdjList_subset {m : List (String × List String)}
    {src x : String} {lst : List String}
    (h : x ∈ (setAdjList m src lst).map Prod.fst) :
    x ∈ m.map Prod.fst ∨ x = src := by
  induction m with
  | nil => simpa [setAdjList] using h
  | cons q rest ih =>
      by_cases hq : q.1 = src
      · rw [setAdjList, if_pos (by simp [hq])] at h
        rw [List.map_cons, List.mem_cons] at h
        rcases h with rfl | h'
        · exact Or.inr hq
        · exact Or.inl (List.mem_cons_of_mem _ h')
      · rw [setAdjList, if_neg (by simp [hq])] at h
        rw [List.map_cons, List.mem_cons] at h
        rcases h with rfl | h'
        · exact Or.inl (List.mem_cons_self _ _)
        · rcases ih h' with h'' | h''
          · exact Or.inl (List.mem_cons_of_mem _ h'')
          · exact Or.inr h''

theorem keys_nodup_setAdjList {m : List (String × List String)}
    {src : String} {lst : List String} (h : (m.map Prod.fst).Nodup) :
    ((setAdjList m src lst).map Prod.fst).Nodup := by
  induction m with
  | nil => simp [setAdjList]
  | cons q rest ih =>
      rw [List.map_cons, List.nodup_cons] at h
      by_cases hq : q.1 = src
      · rw [setAdjList, if_pos (by simp [hq])]
        rw [List.map_cons, List.nodup_cons]
        exact ⟨by simpa using h.1, h.2⟩
      · rw [setAdjList, if_neg (by simp [hq])]
        rw [List.map_cons, List.nodup_cons]
        refine ⟨fun hx => ?_, ih h.2⟩
        rcases keys_setAdjList_subset hx with hx' | hx'
        · exact h.1 hx'
        · exact hq hx'

end LinkGraph

namespace LinkGraph

/-! ### Branch equations for the operations -/

/-- The record the conflict path of `UpsertLink` stores for `existing`. -/
def resolvedLink (ex link : Link) : Link :=
  { link with
    id := ex.id
    retrievedAt :=
      (if ex.retrievedAt > link.retrievedAt then ex.retrievedAt
       else link.retrievedAt) }

theorem upsertLink_conflict {s : InMemoryGraph} {link ex : Link}
    (hex : lookupURL s link.url = some ex) (newId : String) :
    upsertLink newId link s =
      ({ link with id := ex.id },
       { s with links := s.links.map (fun l =>
           if l.id == ex.id then resolvedLink ex link else l) }) := by
  simp only [upsertLink, hex, resolvedLink]

theorem upsertLink_insert {s : InMemoryGraph} {link : Link}
    (hex : lookupURL s link.url = none) (newId : String) :
    upsertLink newId link s =
      ({ link with id := newId },
       { s with links := s.links ++ [{ link with id := newId }] }) := by
  simp only [upsertLink, hex]

/-! ### The well-formedness invariant -/

/-- Invariant of every state reachable by the in-memory store's
operations: stored link identifiers and URLs are unique, stored edge
identifiers are unique, and `edges` and the `linkEdgeMap` adjacency
index describe each other. -/
def WF (s : InMemoryGraph) : Prop :=
  (s.links.map Link.id).Nodup ∧
  (s.links.map Link.url).Nodup ∧
  (s.edges.map Edge.id).Nodup ∧
  (∀ e ∈ s.edges, e.id ∈ edgeList s e.source) ∧
  (∀ p ∈ s.linkEdgeMap, ∀ eid ∈ p.2, ∃ e ∈ s.edges, e.id = eid ∧ e.source = p.1) ∧
  (s.linkEdgeMap.map Prod.fst).Nodup

instance (s : InMemoryGraph) : Decidable (WF s) := by
  unfold WF
  infer_instance

theorem link_eq_of_id_eq {s : InMemoryGraph}
    (h : (s.links.map Link.id).Nodup) {a b : Link}
    (ha : a ∈ s.links) (hb : b ∈ s.links) (hab : a.id = b.id) : a = b :=
  List.inj_on_of_nodup_map h ha hb hab

theorem edge_eq_of_id_eq {s : InMemoryGraph}
    (h : (s.edges.map Edge.id).Nodup) {a b : Edge}
    (ha : a ∈ s.edges) (hb : b ∈ s.edges) (hab : a.id = b.id) : a = b :=
  List.inj_on_of_nodup_map h ha hb hab

theorem emptyGraph_wf : WF emptyGraph := by
  refine ⟨?_, ?_, ?_, ?_, ?_, ?_⟩ <;> simp [emptyGraph, edgeList, lookupAdjList]

/-- `UpsertLink` preserves the invariant when the identifier drawn by
the collision-retry loop is fresh (which the loop guarantees). -/
theorem upsertLink_wf {s : InMemoryGraph} {newId : String} {link : Link}
    (h : WF s) (hf : lookupLink s newId = none) :
    WF (upsertLink newId link s).2 := by
  obtain ⟨hids, hurls, heids, hadj, hsound, hkeys⟩ := h
  cases hex : lookupURL s link.url with
  | some ex =>
      obtain ⟨hexmem, hexurl⟩ := lookupURL_mem hex
      rw [upsertLink_conflict hex]
      have hid : ∀ l ∈ s.links,
          Link.id (if l.id == ex.id then resolvedLink ex link else l) = l.id := by
        intro l _
        by_cases hl : l.id = ex.id
        · simp [hl, resolvedLink]
        · simp [hl]
      have hurl : ∀ l ∈ s.links,
          Link.url (if l.id == ex.id then resolvedLink ex link else l) = l.url := by
        intro l hl
        by_cases hle : l.id = ex.id
        · have : l = ex := link_eq_of_id_eq hids hl hexmem hle
          simp [hle, resolvedLink, this, hexurl]
        · simp [hle]
      refine ⟨?_, ?_, heids, hadj, hsound, hkeys⟩
      · rw [map_map_eq_of_proj_eq _ Link.id _ hid]; exact hids
      · rw [map_map_eq_of_proj_eq _ Link.url _ hurl]; exact hurls
  | none =>
      rw [upsertLink_insert hex]
      refine ⟨?_, ?_, heids, hadj, hsound, hkeys⟩
      · rw [List.map_append]
        rw [List.nodup_append]
        refine ⟨hids, List.nodup_singleton _, ?_⟩
        intro x hx hx'
        simp only [List.map_cons, List.map_nil, List.mem_singleton] at hx'
        rcases List.mem_map.mp hx with ⟨l, hl, rfl⟩
        exact (lookupLink_eq_none_iff.mp hf l hl) hx'
      · rw [List.map_append]
        rw [List.nodup_append]
        refine ⟨hurls, List.nodup_singleton _, ?_⟩
        intro x hx hx'
        simp only [List.map_cons, List.map_nil, List.mem_singleton] at hx'
        rcases List.mem_map.mp hx with ⟨l, hl, rfl⟩
        exact (lookupURL_eq_none_iff.mp hex l hl) hx'

end LinkGraph

namespace LinkGraph

theorem upsertEdge_err {now : Int} {newId : String} {edge : Edge}
    {s : InMemoryGraph}
    (h : lookupLink s edge.source = none ∨ lookupLink s edge.destination = none) :
    upsertEdge now newId edge s = (some .unknownEdgeLinks, edge, s) := by
  rcases h with h | h <;> simp [upsertEdge, h]

theorem upsertEdge_update {now : Int} {newId : String} {edge ex : Edge}
    {s : InMemoryGraph}
    (hs : (lookupLink s edge.source).isSome = true)
    (hd : (lookupLink s edge.destination).isSome = true)
    (hfind : dedupScan s edge = some ex) :
    upsertEdge now newId edge s =
      (none, { ex with updatedAt := now },
       { s with edges := s.edges.map (fun e =>
           if e.id == ex.id then { ex with updatedAt := now } else e) }) := by
  simp only [upsertEdge, hs, hd, hfind, Bool.not_true, Bool.or_self, Bool.false_eq_true,
    if_false]

theorem upsertEdge_insert {now : Int} {newId : String} {edge : Edge}
    {s : InMemoryGraph}
    (hs : (lookupLink s edge.source).isSome = true)
    (hd : (lookupLink s edge.destination).isSome = true)
    (hfind : dedupScan s edge = none) :
    upsertEdge now newId edge s =
      (none, { edge with id := newId, updatedAt := now },
       { s with
         edges := s.edges ++ [{ edge with id := newId, updatedAt := now }],
         linkEdgeMap := insertEdgeId s.linkEdgeMap edge.source newId }) := by
  simp only [upsertEdge, hs, hd, hfind, Bool.not_true, Bool.or_self, Bool.false_eq_true,
    if_false]

/-- A hit of the dedup scan is a stored edge with the submitted
`(Source, Destination)` pair. -/
theorem dedupScan_some {s : InMemoryGraph} {edge ex : Edge}
    (h : dedupScan s edge = some ex) :
    ex ∈ s.edges ∧ ex.source = edge.source ∧ ex.destination = edge.destination := by
  obtain ⟨eid, _, hf⟩ := List.exists_of_findSome?_eq_some h
  cases hle : lookupEdge s eid with
  | none => rw [hle] at hf; cases hf
  | some ex₂ =>
      rw [hle] at hf
      have hf' : (if (ex₂.source == edge.source &&
          ex₂.destination == edge.destination) = true then some ex₂
          else none) = some ex := hf
      by_cases hc : (ex₂.source == edge.source &&
          ex₂.destination == edge.destination) = true
      · rw [if_pos hc] at hf'
        cases hf'
        have hc' := hc
        rw [Bool.and_eq_true, beq_iff_eq, beq_iff_eq] at hc'
        exact ⟨(lookupEdge_mem hle).1, hc'.1, hc'.2⟩
      · rw [if_neg hc] at hf'; cases hf'

/-- `UpsertEdge` preserves the invariant when the drawn identifier is
fresh. -/
theorem upsertEdge_wf {s : InMemoryGraph} {now : Int} {newId : String}
    {edge : Edge} (h : WF s) (hf : lookupEdge s newId = none) :
    WF (upsertEdge now newId edge s).2.2 := by
  obtain ⟨hids, hurls, heids, hadj, hsound, hkeys⟩ := h
  by_cases hs : (lookupLink s edge.source).isSome
  case neg =>
    rw [upsertEdge_err (Or.inl (Option.not_isSome_iff_eq_none.mp hs))]
    exact ⟨hids, hurls, heids, hadj, hsound, hkeys⟩
  by_cases hd : (lookupLink s edge.destination).isSome
  case neg =>
    rw [upsertEdge_err (Or.inr (Option.not_isSome_iff_eq_none.mp hd))]
    exact ⟨hids, hurls, heids, hadj, hsound, hkeys⟩
  cases hfind : dedupScan s edge with
  | some ex =>
      obtain ⟨hexmem, hexsrc, _⟩ := dedupScan_some hfind
      rw [upsertEdge_update hs hd hfind]
      have hidp : ∀ e ∈ s.edges,
          Edge.id (if e.id == ex.id then { ex with updatedAt := now } else e)
            = e.id := by
        intro e _
        by_cases hee : e.id = ex.id
        · simp [hee]
        · simp [hee]
      have hsrcp : ∀ e ∈ s.edges,
          Edge.source (if e.id == ex.id then { ex with updatedAt := now } else e)
            = e.source := by
        intro e he
        by_cases hee : e.id = ex.id
        · have : e = ex := edge_eq_of_id_eq heids he hexmem hee
          simp [hee, this]
        · simp [hee]
      refine ⟨hids, hurls, ?_, ?_, ?_, hkeys⟩
      · rw [map_map_eq_of_proj_eq _ Edge.id _ hidp]; exact heids
      · intro e he
        rcases List.mem_map.mp he with ⟨e₀, he₀, rfl⟩
        show Edge.id _ ∈ edgeList s _
        rw [hidp e₀ he₀, hsrcp e₀ he₀]
        exact hadj e₀ he₀
      · intro p hp eid heid
        obtain ⟨e, he, rfl, hsrc⟩ := hsound p hp eid heid
        refine ⟨(fun e => if e.id == ex.id then { ex with updatedAt := now } else e) e,
          List.mem_map_of_mem _ he, hidp e he, ?_⟩
        rw [hsrcp e he]; exact hsrc
  | none =>
      rw [upsertEdge_insert hs hd hfind]
      have hfresh : ∀ e ∈ s.edges, e.id ≠ newId := by
        intro e he
        have := List.find?_eq_none.mp hf e he
        simpa using this
      refine ⟨hids, hurls, ?_, ?_, ?_, ?_⟩
      · rw [List.map_append, List.nodup_append]
        refine ⟨heids, List.nodup_singleton _, ?_⟩
        intro x hx hx'
        simp only [List.map_cons, List.map_nil, List.mem_singleton] at hx'
        rcases List.mem_map.mp hx with ⟨e, he, rfl⟩
        exact hfresh e he hx'
      · intro e he
        have hel : edgeList
            { s with
              edges := s.edges ++ [{ edge with id := newId, updatedAt := now }],
              linkEdgeMap := insertEdgeId s.linkEdgeMap edge.source newId }
            e.source =
            if e.source = edge.source then edgeList s edge.source ++ [newId]
            else edgeList s e.source :=
          lookupAdjList_insertEdgeId s.linkEdgeMap edge.source newId e.source
        rw [hel]
        rcases List.mem_append.mp he with he' | he'
        · by_cases hsrc : e.source = edge.source
          · rw [if_pos hsrc]
            exact List.mem_append_left _ (hsrc ▸ hadj e he')
          · rw [if_neg hsrc]
            exact hadj e he'
        · rw [List.mem_singleton] at he'
          subst he'
          rw [if_pos rfl]
          exact List.mem_append_right _ (List.mem_singleton.mpr rfl)
      · intro p hp eid heid
        rcases mem_insertEdgeId hp with hp' | ⟨hp1, hp2⟩
        · obtain ⟨e, he, rfl, hsrc⟩ := hsound p hp' eid heid
          exact ⟨e, List.mem_append_left _ he, rfl, hsrc⟩
        · rcases hp2 eid heid with heq | ⟨q, hq, hq1, hq2⟩
          · refine ⟨{ edge with id := newId, updatedAt := now },
              List.mem_append_right _ (List.mem_singleton.mpr rfl), heq.symm, ?_⟩
            show edge.source = p.1
            rw [hp1]
          · obtain ⟨e, he, rfl, hsrc⟩ := hsound q hq eid hq2
            refine ⟨e, List.mem_append_left _ he, rfl, ?_⟩
            rw [hsrc, hq1, hp1]
      · exact keys_nodup_insertEdgeId hkeys

end LinkGraph

namespace LinkGraph

theorem contains_iff_mem {l : List String} {a : String} :
    l.contains a = true ↔ a ∈ l := by
  simp [List.contains]

/-- For a stored edge, the stale test reads exactly that edge's
`UpdatedAt`. -/
theorem staleCheck_of_mem {s : InMemoryGraph}
    (heids : (s.edges.map Edge.id).Nodup) {e : Edge} (he : e ∈ s.edges)
    (t : Int) : staleCheck s t e.id = decide (e.updatedAt < t) := by
  rw [staleCheck, lookupEdge_of_mem heids he]

/-- Membership in the edge set after `RemoveStaleEdges`, characterized
on well-formed states. -/
theorem removeStaleEdges_mem_edges {s : InMemoryGraph} (h : WF s)
    (fromId : String) (t : Int) {e : Edge} :
    e ∈ (removeStaleEdges fromId t s).edges ↔
      e ∈ s.edges ∧ ¬(e.source = fromId ∧ e.updatedAt < t) := by
  obtain ⟨_, _, heids, hadj, hsound, _⟩ := h
  rw [removeStaleEdges]
  simp only [List.mem_filter]
  constructor
  · rintro ⟨he, hkeep⟩
    refine ⟨he, ?_⟩
    rintro ⟨hsrc, hlt⟩
    rw [Bool.not_eq_true', Bool.and_eq_false_iff] at hkeep
    rcases hkeep with hk | hk
    · have : e.id ∈ edgeList s fromId := hsrc ▸ hadj e he
      rw [contains_iff_mem.mpr this] at hk
      cases hk
    · rw [staleCheck_of_mem heids he t] at hk
      simp only [decide_eq_false_iff_not] at hk
      exact hk hlt
  · rintro ⟨he, hno⟩
    refine ⟨he, ?_⟩
    rw [Bool.not_eq_true', Bool.and_eq_false_iff]
    by_cases hin : e.id ∈ edgeList s fromId
    · right
      rw [staleCheck_of_mem heids he t]
      simp only [decide_eq_false_iff_not]
      intro hlt
      obtain ⟨q, hq, hq1, hq2⟩ := exists_entry_of_mem_lookupAdjList hin
      obtain ⟨e₂, he₂, hid₂, hsrc₂⟩ := hsound q hq e.id hq2
      have : e₂ = e := edge_eq_of_id_eq heids he₂ he hid₂
      exact hno ⟨by rw [← this, hsrc₂, hq1], hlt⟩
    · left
      rw [Bool.eq_false_iff]
      intro hc
      exact hin (contains_iff_mem.mp hc)

/-- `RemoveStaleEdges` preserves the invariant. -/
theorem removeStaleEdges_wf {s : InMemoryGraph} (h : WF s)
    (fromId : String) (t : Int) : WF (removeStaleEdges fromId t s) := by
  have hmem := fun {e} => (removeStaleEdges_mem_edges h fromId t (e := e))
  obtain ⟨hids, hurls, heids, hadj, hsound, hkeys⟩ := h
  refine ⟨hids, hurls, ?_, ?_, ?_, ?_⟩
  · exact ((List.filter_sublist s.edges).map Edge.id).nodup heids
  · intro e he
    have hel : ∀ u, edgeList (removeStaleEdges fromId t s) u =
        if u = fromId then
          (edgeList s fromId).filter (fun eid => !staleCheck s t eid)
        else edgeList s u := by
      intro u
      exact lookupAdjList_setAdjList s.linkEdgeMap fromId _ u
    obtain ⟨hmem', hno⟩ := hmem.mp he
    rw [hel]
    by_cases hsrc : e.source = fromId
    · rw [if_pos hsrc]
      rw [List.mem_filter]
      refine ⟨hsrc ▸ hadj e hmem', ?_⟩
      rw [staleCheck_of_mem heids hmem' t]
      simp only [Bool.not_eq_eq_eq_not, Bool.not_true, decide_eq_false_iff_not]
      exact fun hlt => hno ⟨hsrc, hlt⟩
    · rw [if_neg hsrc]
      exact hadj e hmem'
  · intro p hp eid heid
    rcases mem_setAdjList hkeys hp with ⟨hpm, hpne⟩ | ⟨hp1, hp2⟩
    · obtain ⟨e, he, rfl, hsrc⟩ := hsound p hpm eid heid
      refine ⟨e, ?_, rfl, hsrc⟩
      exact hmem.mpr ⟨he, fun hc => hpne (hsrc ▸ hc.1 ▸ rfl)⟩
    · rw [hp2, List.mem_filter] at heid
      obtain ⟨hin, hstale⟩ := heid
      obtain ⟨q, hq, hq1, hq2⟩ := exists_entry_of_mem_lookupAdjList hin
      obtain ⟨e, he, rfl, hsrc⟩ := hsound q hq eid hq2
      refine ⟨e, ?_, rfl, by rw [hsrc, hq1, hp1]⟩
      refine hmem.mpr ⟨he, ?_⟩
      rintro ⟨_, hlt⟩
      rw [staleCheck_of_mem heids he t] at hstale
      simp only [Bool.not_eq_eq_eq_not, Bool.not_true, decide_eq_false_iff_not] at hstale
      exact hstale hlt
  · exact keys_nodup_setAdjList hkeys

end LinkGraph

namespace LinkGraph

/-! ### Operation sequences -/

/-- One call of the `graph.Graph` contract against the in-memory store.
Upserts carry the identifier drawn by the collision-retry loop and, for
edges, the `time.Now()` value observed by the call. -/
inductive Op where
  | upsertLinkOp (newId : String) (link : Link)
  | upsertEdgeOp (now : Int) (newId : String) (edge : Edge)
  | findLinkOp (id : String)
  | linksOp (fromId toId : String) (t : Int)
  | edgesOp (fromId toId : String) (t : Int)
  | removeStaleEdgesOp (fromId : String) (t : Int)
deriving DecidableEq, Repr

/-- The state after one call.  `FindLink`, `Links` and `Edges` only read
the store. -/
def applyOp : Op → InMemoryGraph → InMemoryGraph
  | .upsertLinkOp nid l, s => (upsertLink nid l s).2
  | .upsertEdgeOp now nid e, s => (upsertEdge now nid e s).2.2
  | .findLinkOp _, s => s
  | .linksOp _ _ _, s => s
  | .edgesOp _ _ _, s => s
  | .removeStaleEdgesOp f t, s => removeStaleEdges f t s

/-- The guarantee the `uuid.New()` collision-retry loop provides for a
call: the drawn identifier does not collide with a stored one. -/
def opOKb : Op → InMemoryGraph → Bool
  | .upsertLinkOp nid _, s => (lookupLink s nid).isNone
  | .upsertEdgeOp _ nid _, s => (lookupEdge s nid).isNone
  | _, _ => true

def applyOps (ops : List Op) (s : InMemoryGraph) : InMemoryGraph :=
  ops.foldl (fun st o => applyOp o st) s

def opsOKb : List Op → InMemoryGraph → Bool
  | [], _ => true
  | o :: os, s => opOKb o s && opsOKb os (applyOp o s)

theorem applyOps_cons (o : Op) (ops : List Op) (s : InMemoryGraph) :
    applyOps (o :: ops) s = applyOps ops (applyOp o s) := rfl

theorem applyOps_append (a b : List Op) (s : InMemoryGraph) :
    applyOps (a ++ b) s = applyOps b (applyOps a s) :=
  List.foldl_append _ _ _ _

theorem opsOKb_append {a b : List Op} {s : InMemoryGraph}
    (h : opsOKb (a ++ b) s = true) :
    opsOKb a s = true ∧ opsOKb b (applyOps a s) = true := by
  induction a generalizing s with
  | nil => exact ⟨rfl, h⟩
  | cons o os ih =>
      rw [List.cons_append, opsOKb, Bool.and_eq_true] at h
      obtain ⟨h1, h2⟩ := h
      obtain ⟨h3, h4⟩ := ih h2
      exact ⟨by rw [opsOKb, Bool.and_eq_true]; exact ⟨h1, h3⟩, h4⟩

theorem upsertEdge_links_eq (now : Int) (newId : String) (edge : Edge)
    (s : InMemoryGraph) :
    (upsertEdge now newId edge s).2.2.links = s.links := by
  by_cases hs : (lookupLink s edge.source).isSome
  · by_cases hd : (lookupLink s edge.destination).isSome
    · cases hfind : dedupScan s edge with
      | some ex => rw [upsertEdge_update hs hd hfind]
      | none => rw [upsertEdge_insert hs hd hfind]
    · rw [upsertEdge_err (Or.inr (Option.not_isSome_iff_eq_none.mp hd))]
  · rw [upsertEdge_err (Or.inl (Option.not_isSome_iff_eq_none.mp hs))]

/-- Each call preserves the invariant (given the freshness the retry
loop guarantees). -/
theorem applyOp_wf {s : InMemoryGraph} (h : WF s) {o : Op}
    (hok : opOKb o s = true) : WF (applyOp o s) := by
  cases o with
  | upsertLinkOp nid link =>
      exact upsertLink_wf h
        (by simpa [opOKb, Option.isNone_iff_eq_none] using hok)
  | upsertEdgeOp now nid e =>
      exact upsertEdge_wf h
        (by simpa [opOKb, Option.isNone_iff_eq_none] using hok)
  | findLinkOp id => exact h
  | linksOp a b t => exact h
  | edgesOp a b t => exact h
  | removeStaleEdgesOp f t => exact removeStaleEdges_wf h f t

theorem applyOps_wf {ops : List Op} {s : InMemoryGraph} (h : WF s)
    (hok : opsOKb ops s = true) : WF (applyOps ops s) := by
  induction ops generalizing s with
  | nil => exact h
  | cons o os ih =>
      rw [opsOKb, Bool.and_eq_true] at hok
      exact ih (applyOp_wf h hok.1) hok.2

/-- One call never removes a stored link, never changes its identifier
or URL, and never decreases its `RetrievedAt`. -/
theorem applyOp_links_mono {s : InMemoryGraph} (h : WF s) (o : Op)
    {l : Link} (hl : l ∈ s.links) :
    ∃ rt, l.retrievedAt ≤ rt ∧
      { l with retrievedAt := rt } ∈ (applyOp o s).links := by
  obtain ⟨hids, _, _, _, _, _⟩ := h
  cases o with
  | upsertLinkOp nid link =>
      show ∃ rt, _ ∧ _ ∈ (upsertLink nid link s).2.links
      cases hex : lookupURL s link.url with
      | some ex =>
          obtain ⟨hexmem, hexurl⟩ := lookupURL_mem hex
          rw [upsertLink_conflict hex]
          by_cases hle : l.id = ex.id
          · have hlex : l = ex := link_eq_of_id_eq hids hl hexmem hle
            subst hlex
            refine ⟨(resolvedLink l link).retrievedAt, ?_, ?_⟩
            · rw [resolvedLink]
              dsimp only
              split <;> omega
            · refine List.mem_map.mpr ⟨l, hl, ?_⟩
              simp only [beq_self_eq_true, if_true]
              rw [resolvedLink]
              simp [hexurl]
          · refine ⟨l.retrievedAt, le_refl _, ?_⟩
            refine List.mem_map.mpr ⟨l, hl, ?_⟩
            simp [hle]
      | none =>
          rw [upsertLink_insert hex]
          exact ⟨l.retrievedAt, le_refl _, List.mem_append_left _ hl⟩
  | upsertEdgeOp now nid e =>
      refine ⟨l.retrievedAt, le_refl _, ?_⟩
      show _ ∈ (upsertEdge now nid e s).2.2.links
      rw [upsertEdge_links_eq]
      exact hl
  | findLinkOp id => exact ⟨l.retrievedAt, le_refl _, hl⟩
  | linksOp a b t => exact ⟨l.retrievedAt, le_refl _, hl⟩
  | edgesOp a b t => exact ⟨l.retrievedAt, le_refl _, hl⟩
  | removeStaleEdgesOp f t => exact ⟨l.retrievedAt, le_refl _, hl⟩

/-- Across any sequence of calls: a stored link persists, keeps its
identifier and URL, and its `RetrievedAt` never decreases. -/
theorem applyOps_links_mono {s : InMemoryGraph} (h : WF s) {ops : List Op}
    (hok : opsOKb ops s = true) {l : Link} (hl : l ∈ s.links) :
    ∃ rt, l.retrievedAt ≤ rt ∧
      { l with retrievedAt := rt } ∈ (applyOps ops s).links := by
  induction ops generalizing s l with
  | nil => exact ⟨l.retrievedAt, le_refl _, hl⟩
  | cons o os ih =>
      rw [opsOKb, Bool.and_eq_true] at hok
      obtain ⟨rt₁, hle₁, hmem₁⟩ := applyOp_links_mono h o hl
      obtain ⟨rt₂, hle₂, hmem₂⟩ := ih (applyOp_wf h hok.1) hok.2 hmem₁
      exact ⟨rt₂, le_trans hle₁ hle₂, hmem₂⟩

end LinkGraph

namespace LinkGraph

/-- In a list with duplicate-free keys, filtering by the key of a member
yields exactly that member. -/
theorem filter_key_eq_singleton {α β : Type} [DecidableEq β] (f : α → β)
    (l : List α) (h : (l.map f).Nodup) (a : α) (ha : a ∈ l) :
    l.filter (fun x => f x == f a) = [a] := by
  induction l with
  | nil => cases ha
  | cons x xs ih =>
      rw [List.map_cons, List.nodup_cons] at h
      rcases List.mem_cons.mp ha with rfl | ha'
      · rw [List.filter_cons_of_pos (by simp)]
        have hnil : xs.filter (fun b => f b == f a) = [] := by
          rw [List.filter_eq_nil_iff]
          intro b hb
          simp only [beq_iff_eq]
          exact fun he => h.1 (he ▸ List.mem_map_of_mem f hb)
        rw [hnil]
      · have hne : f x ≠ f a := fun he =>
          h.1 (he ▸ List.mem_map_of_mem f ha')
        rw [List.filter_cons_of_neg (by simp [hne])]
        exact ih h.2 ha'

/-- After a conflicting `UpsertLink`, the URL resolves to the updated
record. -/
theorem lookupURL_upsertLink_conflict {s : InMemoryGraph} (hWF : WF s)
    {link ex : Link} (hex : lookupURL s link.url = some ex) (nid : String) :
    lookupURL (upsertLink nid link s).2 link.url
      = some (resolvedLink ex link) := by
  obtain ⟨hids, _, _, _, _, _⟩ := hWF
  obtain ⟨hexmem, hexurl⟩ := lookupURL_mem hex
  rw [upsertLink_conflict hex]
  show (s.links.map (fun l =>
      if l.id == ex.id then resolvedLink ex link else l)).find?
      (fun l => l.url == link.url) = some (resolvedLink ex link)
  rw [find?_map_of_pred_eq _ _ _ ?_]
  · rw [show s.links.find? (fun l => l.url == link.url) = some ex from hex]
    simp
  · intro a ha
    by_cases hae : a.id = ex.id
    · have : a = ex := link_eq_of_id_eq hids ha hexmem hae
      simp [hae, this, resolvedLink, hexurl]
    · simp [hae]

/-- After an inserting `UpsertLink`, the URL resolves to the inserted
record. -/
theorem lookupURL_upsertLink_insert {s : InMemoryGraph} {link : Link}
    (hex : lookupURL s link.url = none) (nid : String) :
    lookupURL (upsertLink nid link s).2 link.url
      = some { link with id := nid } := by
  rw [upsertLink_insert hex]
  show (s.links ++ [{ link with id := nid }]).find?
      (fun l => l.url == link.url) = some { link with id := nid }
  rw [List.find?_append,
    show s.links.find? (fun l => l.url == link.url) = none from hex]
  simp

end LinkGraph

namespace LinkGraph

/-- The byte-wise order on identifier strings is irreflexive. -/
theorem charListLt_irrefl (l : List Char) : charListLt l l = false := by
  induction l with
  | nil => rfl
  | cons a as ih => simp [charListLt, ih]

theorem idLt_irrefl (a : String) : idLt a a = false :=
  charListLt_irrefl a.toList

/-- C5: `Links(a, b, t)` yields exactly the stored links whose canonical
identifier string lies in the half-open range `[a, b)` and whose
`RetrievedAt` is strictly before `t`; a link with identifier `b` is
never yielded, and one with `RetrievedAt = t` is never yielded. -/
theorem c5_links_partition_scan (a b : String) (t : Int)
    (s : InMemoryGraph) (l : Link) :
    (l ∈ linksScan a b t s ↔
      l ∈ s.links ∧ idLe a l.id = true ∧ idLt l.id b = true ∧
        l.retrievedAt < t) ∧
    (l ∈ linksScan a b t s → l.id ≠ b ∧ l.retrievedAt ≠ t) := by
  have hmem : l ∈ linksScan a b t s ↔
      l ∈ s.links ∧ idLe a l.id = true ∧ idLt l.id b = true ∧
        l.retrievedAt < t := by
    rw [linksScan, List.mem_filter]
    simp [and_assoc]
  refine ⟨hmem, fun h => ?_⟩
  obtain ⟨_, _, hlt, hrt⟩ := hmem.mp h
  refine ⟨fun he => ?_, ne_of_lt hrt⟩
  rw [he, idLt_irrefl] at hlt
  cases hlt

/-- Store used by the C5 witness. -/
def c5Store : InMemoryGraph :=
  ⟨[⟨"aaa", "http://u", 1⟩], [], []⟩

theorem c5_links_partition_scan_witness :
    Link.mk "aaa" "http://u" 1 ∈ linksScan "a" "z" 5 c5Store ∧
    Link.mk "aaa" "http://u" 1 ∈ c5Store.links := by
  refine ⟨(c5_links_partition_scan "a" "z" 5 c5Store _).1.mpr
    ⟨by decide, by decide, by decide, by decide⟩, by decide⟩

/-- C6: `RemoveStaleEdges(src, t)` deletes exactly the edges with
`Source = src` and `UpdatedAt < t`; every other edge is still present
and unchanged, and the links are unchanged. -/
theorem c6_remove_stale_edges (s : InMemoryGraph) (hWF : WF s)
    (src : String) (t : Int) :
    (removeStaleEdges src t s).links = s.links ∧
    ∀ e : Edge, e ∈ (removeStaleEdges src t s).edges ↔
      e ∈ s.edges ∧ ¬(e.source = src ∧ e.updatedAt < t) :=
  ⟨rfl, fun _ => removeStaleEdges_mem_edges hWF src t⟩

/-- Store used by the C6 witness: two links, one stale edge and one
fresh edge out of `"a"`, one edge out of `"b"`. -/
def c6Store : InMemoryGraph :=
  ⟨[⟨"a", "u1", 0⟩, ⟨"b", "u2", 0⟩],
   [⟨"e1", "a", "b", 10⟩, ⟨"e2", "a", "b", 99⟩, ⟨"e3", "b", "a", 10⟩],
   [("a", ["e1", "e2"]), ("b", ["e3"])]⟩

theorem c6_remove_stale_edges_witness :
    WF c6Store ∧
    ((removeStaleEdges "a" 50 c6Store).links = c6Store.links ∧
      ∀ e : Edge, e ∈ (removeStaleEdges "a" 50 c6Store).edges ↔
        e ∈ c6Store.edges ∧ ¬(e.source = "a" ∧ e.updatedAt < 50)) :=
  ⟨by decide, c6_remove_stale_edges c6Store (by decide) "a" 50⟩

/-- C7: `UpsertEdge` fails with `UnknownEdgeLinks` exactly when the
source or the destination identifier is not a stored link; when both
endpoints exist the call succeeds. -/
theorem c7_upsert_edge_unknown_links (now : Int) (nid : String) (e : Edge)
    (s : InMemoryGraph) :
    ((upsertEdge now nid e s).1 = some GraphErr.unknownEdgeLinks ↔
      lookupLink s e.source = none ∨ lookupLink s e.destination = none) ∧
    ((lookupLink s e.source).isSome = true →
      (lookupLink s e.destination).isSome = true →
      (upsertEdge now nid e s).1 = none) := by
  constructor
  · constructor
    · intro h
      by_cases hs : (lookupLink s e.source).isSome
      · by_cases hd : (lookupLink s e.destination).isSome
        · exfalso
          cases hfind : dedupScan s e with
          | some ex => rw [upsertEdge_update hs hd hfind] at h; cases h
          | none => rw [upsertEdge_insert hs hd hfind] at h; cases h
        · exact Or.inr (Option.not_isSome_iff_eq_none.mp hd)
      · exact Or.inl (Option.not_isSome_iff_eq_none.mp hs)
    · intro h
      rw [upsertEdge_err h]
  · intro hs hd
    cases hfind : dedupScan s e with
    | some ex => rw [upsertEdge_update hs hd hfind]
    | none => rw [upsertEdge_insert hs hd hfind]

theorem c7_upsert_edge_unknown_links_witness :
    ((upsertEdge 5 "e9" ⟨"", "a", "zz", 0⟩ c6Store).1
        = some GraphErr.unknownEdgeLinks ↔
      lookupLink c6Store "a" = none ∨ lookupLink c6Store "zz" = none) ∧
    ((lookupLink c6Store "a").isSome = true →
      (lookupLink c6Store "b").isSome = true →
      (upsertEdge 5 "e9" ⟨"", "a", "b", 0⟩ c6Store).1 = none) :=
  ⟨(c7_upsert_edge_unknown_links 5 "e9" ⟨"", "a", "zz", 0⟩ c6Store).1,
   (c7_upsert_edge_unknown_links 5 "e9" ⟨"", "a", "b", 0⟩ c6Store).2⟩

/-- C9: `FindLink` fails with `NotFound` exactly on identifiers not
stored, and returns the stored link (a copy) on stored identifiers. -/
theorem c9_find_link (s : InMemoryGraph) (hWF : WF s) (id : String) :
    (lookupLink s id = none →
      findLink id s = Except.error GraphErr.notFound) ∧
    (∀ l ∈ s.links, findLink l.id s = Except.ok l) := by
  refine ⟨fun h => ?_, fun l hl => ?_⟩
  · simp only [findLink, h]
  · simp only [findLink, lookupLink_of_mem hWF.1 hl]

theorem c9_find_link_witness :
    WF c6Store ∧
    ((lookupLink c6Store "zz" = none →
        findLink "zz" c6Store = Except.error GraphErr.notFound) ∧
      (∀ l ∈ c6Store.links, findLink l.id c6Store = Except.ok l)) ∧
    lookupLink c6Store "zz" = none :=
  ⟨by decide, c9_find_link c6Store (by decide) "zz", by decide⟩

/-- C10: a failing `UpsertEdge` is atomic — it returns the
`UnknownEdgeLinks` error, leaves the caller's `edge` argument untouched
and leaves the whole store state (links, edges, URL index, adjacency
lists) exactly as before the call. -/
theorem c10_upsert_edge_atomic_failure (now : Int) (nid : String)
    (e : Edge) (s : InMemoryGraph)
    (h : lookupLink s e.source = none ∨ lookupLink s e.destination = none) :
    (upsertEdge now nid e s).1 = some GraphErr.unknownEdgeLinks ∧
    (upsertEdge now nid e s).2.1 = e ∧
    (upsertEdge now nid e s).2.2 = s := by
  rw [upsertEdge_err h]
  exact ⟨rfl, rfl, rfl⟩

theorem c10_upsert_edge_atomic_failure_witness :
    (lookupLink c6Store "a" = none ∨ lookupLink c6Store "zz" = none) ∧
    ((upsertEdge 5 "e9" ⟨"", "a", "zz", 0⟩ c6Store).1
        = some GraphErr.unknownEdgeLinks ∧
      (upsertEdge 5 "e9" ⟨"", "a", "zz", 0⟩ c6Store).2.1 = ⟨"", "a", "zz", 0⟩ ∧
      (upsertEdge 5 "e9" ⟨"", "a", "zz", 0⟩ c6Store).2.2 = c6Store) :=
  ⟨Or.inr (by decide),
   c10_upsert_edge_atomic_failure 5 "e9" ⟨"", "a", "zz", 0⟩ c6Store
     (Or.inr (by decide))⟩

end LinkGraph

namespace LinkGraph

/-- The conflict path's timestamp rule is the maximum of old and new. -/
theorem if_gt_eq_max (a b : Int) : (if a > b then a else b) = max a b := by
  rw [max_def]
  split <;> split <;> omega

/-- Store shared by several counterexamples and witnesses: the URL
`"http://u"` is already stored with `RetrievedAt = 10`. -/
def preStore : InMemoryGraph :=
  (upsertLink "aaa" ⟨"", "http://u", 10⟩ emptyGraph).2

/-- C3 counterexample: upserting URL `"http://u"` with the older
timestamp 3 against `preStore` returns the caller's link with
`RetrievedAt = 3`, while the resolved (stored) timestamp is 10 — the
caller's argument does not hold the resolved maximum. -/
theorem c3_counterexample :
    (upsertLink "bbb" ⟨"", "http://u", 3⟩ preStore).1
      = ⟨"aaa", "http://u", 3⟩ ∧
    lookupURL (upsertLink "bbb" ⟨"", "http://u", 3⟩ preStore).2 "http://u"
      = some ⟨"aaa", "http://u", 10⟩ ∧
    (3 : Int) ≠ max 10 3 := by decide

/-- C3 amended: on a URL conflict the caller's link receives the
existing identifier but keeps the submitted `RetrievedAt` (hence it
equals the resolved maximum only when the submitted timestamp is at
least the stored one); the store itself keeps the maximum of old and
new. -/
theorem c3_upsert_link_caller (s : InMemoryGraph) (hWF : WF s)
    (link ex : Link) (nid : String)
    (hex : lookupURL s link.url = some ex) :
    (upsertLink nid link s).1 = { link with id := ex.id } ∧
    lookupURL (upsertLink nid link s).2 link.url
      = some (resolvedLink ex link) ∧
    (resolvedLink ex link).id = ex.id ∧
    (resolvedLink ex link).retrievedAt
      = max ex.retrievedAt link.retrievedAt := by
  refine ⟨?_, lookupURL_upsertLink_conflict hWF hex nid, rfl, ?_⟩
  · rw [upsertLink_conflict hex]
  · show (if ex.retrievedAt > link.retrievedAt then ex.retrievedAt
      else link.retrievedAt) = max ex.retrievedAt link.retrievedAt
    exact if_gt_eq_max _ _

theorem c3_upsert_link_caller_witness :
    (WF preStore ∧
      lookupURL preStore "http://u" = some ⟨"aaa", "http://u", 10⟩) ∧
    ((upsertLink "bbb" ⟨"", "http://u", 3⟩ preStore).1
        = { (⟨"", "http://u", 3⟩ : Link) with id := "aaa" } ∧
      lookupURL (upsertLink "bbb" ⟨"", "http://u", 3⟩ preStore).2 "http://u"
        = some (resolvedLink ⟨"aaa", "http://u", 10⟩ ⟨"", "http://u", 3⟩) ∧
      (resolvedLink ⟨"aaa", "http://u", 10⟩ ⟨"", "http://u", 3⟩).id = "aaa" ∧
      (resolvedLink ⟨"aaa", "http://u", 10⟩ ⟨"", "http://u", 3⟩).retrievedAt
        = max 10 3) :=
  ⟨⟨by decide, by decide⟩,
   c3_upsert_link_caller preStore (by decide) ⟨"", "http://u", 3⟩
     ⟨"aaa", "http://u", 10⟩ "bbb" (by decide)⟩

/-- C1 counterexample: on a store already holding the URL with
`RetrievedAt = 10`, upserting L1 (timestamp 1) and then L2 (timestamp 2)
leaves the single record with `RetrievedAt = 10`, not
`max(L1.RetrievedAt, L2.RetrievedAt) = 2`. -/
theorem c1_counterexample :
    ((upsertLink "ccc" ⟨"", "http://u", 2⟩
        (upsertLink "bbb" ⟨"", "http://u", 1⟩ preStore).2).2.links.filter
      (fun l => l.url == "http://u")).map Link.retrievedAt = [10] ∧
    max (1 : Int) 2 = 2 ∧ (10 : Int) ≠ 2 := by decide

/-- C1 amended: after `UpsertLink L1` then `UpsertLink L2` for the same
URL, exactly one record with that URL is stored; its identifier is the
one resolved for L1, and its `RetrievedAt` is the maximum of
`L1.RetrievedAt`, `L2.RetrievedAt` and any previously stored timestamp
for that URL (so exactly `max(L1.RetrievedAt, L2.RetrievedAt)` when the
URL was not stored before). -/
theorem c1_upsert_link_pair (s : InMemoryGraph) (hWF : WF s)
    (L1 L2 : Link) (hurl : L2.url = L1.url) (id1 id2 : String)
    (h1 : lookupLink s id1 = none)
    (h2 : lookupLink (upsertLink id1 L1 s).2 id2 = none) :
    ∃ rec : Link,
      (upsertLink id2 L2 (upsertLink id1 L1 s).2).2.links.filter
          (fun l => l.url == L1.url) = [rec] ∧
      rec.id = (upsertLink id1 L1 s).1.id ∧
      rec.retrievedAt =
        max (max (((lookupURL s L1.url).map Link.retrievedAt).getD
          L1.retrievedAt) L1.retrievedAt) L2.retrievedAt := by
  have hwf1 : WF (upsertLink id1 L1 s).2 := upsertLink_wf hWF h1
  have hwf2 : WF (upsertLink id2 L2 (upsertLink id1 L1 s).2).2 :=
    upsertLink_wf hwf1 h2
  cases hex : lookupURL s L1.url with
  | none =>
      have hs1 : lookupURL (upsertLink id1 L1 s).2 L2.url
          = some { L1 with id := id1 } := by
        rw [hurl]; exact lookupURL_upsertLink_insert hex id1
      have hlook2 := lookupURL_upsertLink_conflict hwf1 hs1 id2
      obtain ⟨hrecmem, hrecurl⟩ := lookupURL_mem hlook2
      refine ⟨resolvedLink { L1 with id := id1 } L2, ?_, ?_, ?_⟩
      · have hpred : (fun (x : Link) => x.url == L1.url)
            = (fun x =>
                x.url == (resolvedLink { L1 with id := id1 } L2).url) := by
          funext x
          rw [hrecurl, hurl]
        rw [hpred]
        exact filter_key_eq_singleton Link.url _ hwf2.2.1 _ hrecmem
      · rw [upsertLink_insert hex]; rfl
      · show (if L1.retrievedAt > L2.retrievedAt then L1.retrievedAt
          else L2.retrievedAt) = _
        rw [if_gt_eq_max]
        simp
  | some p =>
      have hs1 : lookupURL (upsertLink id1 L1 s).2 L2.url
          = some (resolvedLink p L1) := by
        rw [hurl]; exact lookupURL_upsertLink_conflict hWF hex id1
      have hlook2 := lookupURL_upsertLink_conflict hwf1 hs1 id2
      obtain ⟨hrecmem, hrecurl⟩ := lookupURL_mem hlook2
      refine ⟨resolvedLink (resolvedLink p L1) L2, ?_, ?_, ?_⟩
      · have hpred : (fun (x : Link) => x.url == L1.url)
            = (fun x =>
                x.url == (resolvedLink (resolvedLink p L1) L2).url) := by
          funext x
          rw [hrecurl, hurl]
        rw [hpred]
        exact filter_key_eq_singleton Link.url _ hwf2.2.1 _ hrecmem
      · rw [upsertLink_conflict hex]; rfl
      · show (if (resolvedLink p L1).retrievedAt > L2.retrievedAt
            then (resolvedLink p L1).retrievedAt else L2.retrievedAt) = _
        have hres : (resolvedLink p L1).retrievedAt
            = max p.retrievedAt L1.retrievedAt := by
          show (if p.retrievedAt > L1.retrievedAt then p.retrievedAt
            else L1.retrievedAt) = max p.retrievedAt L1.retrievedAt
          exact if_gt_eq_max _ _
        rw [if_gt_eq_max, hres]
        simp

theorem c1_upsert_link_pair_witness :
    (WF emptyGraph ∧ (Link.mk "x" "http://u" 5).url
        = (Link.mk "" "http://u" 1).url ∧
      lookupLink emptyGraph "aaa" = none ∧
      lookupLink (upsertLink "aaa" ⟨"", "http://u", 1⟩ emptyGraph).2 "bbb"
        = none) ∧
    (∃ rec : Link,
      (upsertLink "bbb" ⟨"x", "http://u", 5⟩
          (upsertLink "aaa" ⟨"", "http://u", 1⟩ emptyGraph).2).2.links.filter
          (fun l => l.url == (Link.mk "" "http://u" 1).url) = [rec] ∧
      rec.id = (upsertLink "aaa" ⟨"", "http://u", 1⟩ emptyGraph).1.id ∧
      rec.retrievedAt =
        max (max (((lookupURL emptyGraph (Link.mk "" "http://u" 1).url).map
          Link.retrievedAt).getD 1) 1) 5) :=
  ⟨⟨by decide, by decide, by decide, by decide⟩,
   c1_upsert_link_pair emptyGraph (by decide) ⟨"", "http://u", 1⟩
     ⟨"x", "http://u", 5⟩ (by decide) "aaa" "bbb" (by decide) (by decide)⟩

end LinkGraph

namespace LinkGraph

/-- What one call does to the edge OBJECT a scanned pointer refers to.
The `edgeIterator` built by `Edges` stores `[]*graph.Edge` — pointers
into the live records — and `edgeIterator.Edge()` (edge_iterator.go)
clones the pointed-to object's current contents at call time.  The
object's contents change only on `UpsertEdge`'s conflict path
(memory.go line 89, `existingEdge.UpdatedAt = time.Now()`, reached
after the endpoint check and when the dedup scan finds this object);
`RemoveStaleEdges` removes the object from the `edges` map and from the
adjacency list, after which no code path reaches it again and the
captured pointer keeps yielding its last contents.  On states with
duplicate-free edge identifiers (all reachable states), the record
comparison `dedupScan s edge = some e` identifies exactly the stored
object. -/
def stepEdgeObj (o : Op) (s : InMemoryGraph) (e : Edge) : Edge × Bool :=
  match o with
  | .upsertEdgeOp now _ edge =>
      if !(lookupLink s edge.source).isSome
          || !(lookupLink s edge.destination).isSome then (e, true)
      else if dedupScan s edge = some e then
        ({ e with updatedAt := now }, true)
      else (e, true)
  | .removeStaleEdgesOp f t =>
      if (edgeList s f).contains e.id && staleCheck s t e.id then (e, false)
      else (e, true)
  | _ => (e, true)

/-- The contents a captured edge pointer yields after a sequence of
further calls, together with whether the object is still in the `edges`
map.  A deleted object is frozen: it keeps its last contents but is no
longer live. -/
def traceEdgeObj : List Op → InMemoryGraph → Edge → Bool → Edge × Bool
  | [], _, e, live => (e, live)
  | o :: os, s, e, live =>
      if live then
        traceEdgeObj os (applyOp o s) (stepEdgeObj o s e).1 (stepEdgeObj o s e).2
      else traceEdgeObj os (applyOp o s) e false

/-- The full iteration of an edge iterator whose scan captured
`scanned`, dereferenced after the calls in `ops`: one yielded edge per
captured pointer. -/
def iterYieldEdges (scanned : List Edge) (ops : List Op)
    (s : InMemoryGraph) : List Edge :=
  scanned.map (fun e => (traceEdgeObj ops s e true).1)

/-- No call ever changes the identifier, source or destination of an
edge object — only `UpdatedAt` is mutated in place. -/
theorem stepEdgeObj_identity (o : Op) (s : InMemoryGraph) (e : Edge) :
    (stepEdgeObj o s e).1.id = e.id ∧
    (stepEdgeObj o s e).1.source = e.source ∧
    (stepEdgeObj o s e).1.destination = e.destination := by
  cases o with
  | upsertEdgeOp now nid edge =>
      simp only [stepEdgeObj]
      split
      · exact ⟨rfl, rfl, rfl⟩
      · split
        · exact ⟨rfl, rfl, rfl⟩
        · exact ⟨rfl, rfl, rfl⟩
  | removeStaleEdgesOp f t =>
      simp only [stepEdgeObj]
      split
      · exact ⟨rfl, rfl, rfl⟩
      · exact ⟨rfl, rfl, rfl⟩
  | upsertLinkOp nid link => exact ⟨rfl, rfl, rfl⟩
  | findLinkOp id => exact ⟨rfl, rfl, rfl⟩
  | linksOp a b t => exact ⟨rfl, rfl, rfl⟩
  | edgesOp a b t => exact ⟨rfl, rfl, rfl⟩

theorem traceEdgeObj_identity (ops : List Op) (s : InMemoryGraph)
    (e : Edge) (live : Bool) :
    (traceEdgeObj ops s e live).1.id = e.id ∧
    (traceEdgeObj ops s e live).1.source = e.source ∧
    (traceEdgeObj ops s e live).1.destination = e.destination := by
  induction ops generalizing s e live with
  | nil => exact ⟨rfl, rfl, rfl⟩
  | cons o os ih =>
      cases live with
      | false => exact ih (applyOp o s) e false
      | true =>
          obtain ⟨h1, h2, h3⟩ := stepEdgeObj_identity o s e
          obtain ⟨g1, g2, g3⟩ :=
            ih (applyOp o s) (stepEdgeObj o s e).1 (stepEdgeObj o s e).2
          exact ⟨g1.trans h1, g2.trans h2, g3.trans h3⟩

/-- Store used by the C4 counterexample and witness: two links and one
edge `"e1"` from `"a"` to `"b"` with `UpdatedAt = 100`. -/
def c4EStore : InMemoryGraph :=
  ⟨[⟨"a", "u1", 0⟩, ⟨"b", "u2", 0⟩],
   [⟨"e1", "a", "b", 100⟩],
   [("a", ["e1"])]⟩

/-- C4 counterexample, covering both iterators.  Links: scan `preStore`
(one link, `RetrievedAt = 10`), upsert the same URL with timestamp 15 —
the scanned pointer now yields `RetrievedAt = 15`, not the value at
scan time.  Edges: scan `c4EStore` (one edge, `UpdatedAt = 100`),
re-upsert the same `(Source, Destination)` at time 200 — the captured
pointer yields `UpdatedAt = 200`; and after `RemoveStaleEdges` deletes
the edge, the captured pointer still yields it (with its last
contents) although it is gone from the store. -/
theorem c4_counterexample :
    (linksScanIds "a" "z" 20 preStore = ["aaa"] ∧
      iterYieldLinks ["aaa"] preStore = [some ⟨"aaa", "http://u", 10⟩] ∧
      iterYieldLinks ["aaa"]
          (upsertLink "bbb" ⟨"", "http://u", 15⟩ preStore).2
        = [some ⟨"aaa", "http://u", 15⟩] ∧
      iterYieldLinks ["aaa"]
          (upsertLink "bbb" ⟨"", "http://u", 15⟩ preStore).2
        ≠ iterYieldLinks ["aaa"] preStore) ∧
    (edgesScan "" "zz" 1000 c4EStore = [⟨"e1", "a", "b", 100⟩] ∧
      iterYieldEdges [⟨"e1", "a", "b", 100⟩]
          [Op.upsertEdgeOp 200 "e9" ⟨"", "a", "b", 0⟩] c4EStore
        = [⟨"e1", "a", "b", 200⟩] ∧
      (200 : Int) ≠ 100 ∧
      traceEdgeObj [Op.removeStaleEdgesOp "a" 150] c4EStore
          ⟨"e1", "a", "b", 100⟩ true = (⟨"e1", "a", "b", 100⟩, false) ∧
      lookupEdge (applyOps [Op.removeStaleEdgesOp "a" 150] c4EStore) "e1"
        = none) := by decide

/-- C4 amended: for both iterators the SET of entities yielded is fixed
at scan start, and each yielded entity keeps its identity — a scanned
link identifier still dereferences to exactly one stored link with the
same ID and URL and a `RetrievedAt` that never decreased, and a
captured edge pointer yields exactly one edge with the scanned ID,
Source and Destination (an edge deleted meanwhile is still yielded
with its last contents) — but field values are read at dereference
time, not at scan time. -/
theorem c4_iterator_snapshot_identity (s : InMemoryGraph) (hWF : WF s)
    (a b : String) (t u : Int) (ops : List Op)
    (hok : opsOKb ops s = true) :
    (∀ id ∈ linksScanIds a b t s,
      ∃ l₀ l', lookupLink s id = some l₀ ∧
        lookupLink (applyOps ops s) id = some l' ∧
        l'.id = l₀.id ∧ l'.url = l₀.url ∧
        l₀.retrievedAt ≤ l'.retrievedAt) ∧
    ((iterYieldEdges (edgesScan a b u s) ops s).length
        = (edgesScan a b u s).length ∧
      ∀ e₀ ∈ edgesScan a b u s,
        (traceEdgeObj ops s e₀ true).1.id = e₀.id ∧
        (traceEdgeObj ops s e₀ true).1.source = e₀.source ∧
        (traceEdgeObj ops s e₀ true).1.destination = e₀.destination) := by
  refine ⟨?_, List.length_map _ _, fun e₀ _ => traceEdgeObj_identity ops s e₀ true⟩
  intro id hid
  rcases List.mem_map.mp hid with ⟨l₀, hl₀, rfl⟩
  have hl₀mem : l₀ ∈ s.links := (List.mem_filter.mp hl₀).1
  have h0 : lookupLink s l₀.id = some l₀ := lookupLink_of_mem hWF.1 hl₀mem
  obtain ⟨rt, hle, hmem⟩ := applyOps_links_mono hWF hok hl₀mem
  have hwf' := applyOps_wf hWF hok
  refine ⟨l₀, { l₀ with retrievedAt := rt }, h0, ?_, rfl, rfl, hle⟩
  exact lookupLink_of_mem hwf'.1 hmem

theorem c4_iterator_snapshot_identity_witness :
    (WF c4EStore ∧
      opsOKb [Op.upsertEdgeOp 200 "e9" ⟨"", "a", "b", 0⟩] c4EStore
        = true) ∧
    ((∀ id ∈ linksScanIds "a" "zz" 20 c4EStore,
      ∃ l₀ l', lookupLink c4EStore id = some l₀ ∧
        lookupLink
            (applyOps [Op.upsertEdgeOp 200 "e9" ⟨"", "a", "b", 0⟩] c4EStore)
            id = some l' ∧
        l'.id = l₀.id ∧ l'.url = l₀.url ∧
        l₀.retrievedAt ≤ l'.retrievedAt) ∧
    ((iterYieldEdges (edgesScan "a" "zz" 1000 c4EStore)
          [Op.upsertEdgeOp 200 "e9" ⟨"", "a", "b", 0⟩] c4EStore).length
        = (edgesScan "a" "zz" 1000 c4EStore).length ∧
      ∀ e₀ ∈ edgesScan "a" "zz" 1000 c4EStore,
        (traceEdgeObj [Op.upsertEdgeOp 200 "e9" ⟨"", "a", "b", 0⟩]
            c4EStore e₀ true).1.id = e₀.id ∧
        (traceEdgeObj [Op.upsertEdgeOp 200 "e9" ⟨"", "a", "b", 0⟩]
            c4EStore e₀ true).1.source = e₀.source ∧
        (traceEdgeObj [Op.upsertEdgeOp 200 "e9" ⟨"", "a", "b", 0⟩]
            c4EStore e₀ true).1.destination = e₀.destination)) :=
  ⟨⟨by decide, by decide⟩,
   c4_iterator_snapshot_identity c4EStore (by decide) "a" "zz" 20 1000
     [Op.upsertEdgeOp 200 "e9" ⟨"", "a", "b", 0⟩] (by decide)⟩

/-- C8: in every state reachable from the empty store (with the
freshness the retry loops guarantee), stored URLs are pairwise distinct
and so are stored identifiers; moreover every link stored at an
intermediate state persists to the final state with the same identifier
and URL and a `RetrievedAt` that never decreased. -/
theorem c8_reachable_invariants (ops₁ ops₂ : List Op)
    (hok : opsOKb (ops₁ ++ ops₂) emptyGraph = true) :
    ((applyOps (ops₁ ++ ops₂) emptyGraph).links.map Link.url).Nodup ∧
    ((applyOps (ops₁ ++ ops₂) emptyGraph).links.map Link.id).Nodup ∧
    ∀ l ∈ (applyOps ops₁ emptyGraph).links,
      ∃ rt, l.retrievedAt ≤ rt ∧
        { l with retrievedAt := rt }
          ∈ (applyOps (ops₁ ++ ops₂) emptyGraph).links := by
  obtain ⟨hok1, hok2⟩ := opsOKb_append hok
  have hwf1 := applyOps_wf emptyGraph_wf hok1
  have hwfall := applyOps_wf emptyGraph_wf hok
  refine ⟨hwfall.2.1, hwfall.1, fun l hl => ?_⟩
  rw [applyOps_append]
  exact applyOps_links_mono hwf1 hok2 hl

theorem c8_reachable_invariants_witness :
    opsOKb ([Op.upsertLinkOp "aaa" ⟨"", "http://u", 3⟩] ++
      [Op.upsertLinkOp "bbb" ⟨"", "http://u", 7⟩,
       Op.removeStaleEdgesOp "aaa" 5]) emptyGraph = true ∧
    (((applyOps ([Op.upsertLinkOp "aaa" ⟨"", "http://u", 3⟩] ++
        [Op.upsertLinkOp "bbb" ⟨"", "http://u", 7⟩,
         Op.removeStaleEdgesOp "aaa" 5]) emptyGraph).links.map
        Link.url).Nodup ∧
      ((applyOps ([Op.upsertLinkOp "aaa" ⟨"", "http://u", 3⟩] ++
        [Op.upsertLinkOp "bbb" ⟨"", "http://u", 7⟩,
         Op.removeStaleEdgesOp "aaa" 5]) emptyGraph).links.map
        Link.id).Nodup ∧
      ∀ l ∈ (applyOps [Op.upsertLinkOp "aaa" ⟨"", "http://u", 3⟩]
          emptyGraph).links,
        ∃ rt, l.retrievedAt ≤ rt ∧
          { l with retrievedAt := rt }
            ∈ (applyOps ([Op.upsertLinkOp "aaa" ⟨"", "http://u", 3⟩] ++
              [Op.upsertLinkOp "bbb" ⟨"", "http://u", 7⟩,
               Op.removeStaleEdgesOp "aaa" 5]) emptyGraph).links) :=
  ⟨by decide,
   c8_reachable_invariants [Op.upsertLinkOp "aaa" ⟨"", "http://u", 3⟩]
     [Op.upsertLinkOp "bbb" ⟨"", "http://u", 7⟩,
      Op.removeStaleEdgesOp "aaa" 5] (by decide)⟩

/-- C2 (bug in the SQL-backed store): `upsertEdgeQuery` writes the
source parameter into both the `src` and the `dst` column — the query
text is `VALUES ($1, $1, NOW())` — and declares one placeholder while
`UpsertEdge` passes two arguments, so the stored row could never be the
claimed `(Source, Destination)` pair. -/
theorem c2_cdb_upsert_edge_binds_source_twice :
    cdbUpsertEdgeRow "A" "B" = ("A", "A") ∧
    (cdbUpsertEdgeRow "A" "B").2 ≠ "B" ∧
    cdbUpsertEdgeQueryPlaceholders ≠ cdbUpsertEdgeArgs :=
  ⟨rfl, by decide, by decide⟩

end LinkGraph
